import Mathlib

/-!
Verification of the buffering protocol of `src/main/native/src/BatchHandler.h`
(Hadoop nativetask).  The C++ under scrutiny is the `ByteBuffer` value type and
the `BatchHandler` class: its buffered-write helpers `put`, `putInt`, `flush`,
the input entry point `onInputData`, and the lifecycle method `finish`.

Shallow embedding conventions:
- A `char *` buffer is a total map `Nat → Nat` from byte offset to byte value;
  `uint32_t` fields are `Nat` with arithmetic taken `% 2 ^ 32` exactly where the
  C code performs `uint32_t` arithmetic (additions, subtraction `capacity -
  position`, and the overflow-sensitive comparisons).
- The outward JNI boundary calls `flushOutput(length)` and `finishOutput()`
  (whose bodies live in `BatchHandler.cc`, outside the sources in scope) are
  modelled as events appended to a trace: a flush event records the bytes
  `buff[0..length)` that the Java side consumes, per the boundary contract.
- Invocations of the `handleInput` extension hook are likewise recorded.
- `put`'s `while` loop is embedded with explicit fuel (`putLoop`), since the
  C loop does not terminate for all inputs (see `putLoop_diverges_cap0`).
-/

namespace NativeTask

/-- `2 ^ 32`, the modulus of `uint32_t` arithmetic in `BatchHandler.h`. -/
def U32 : Nat := 2 ^ 32

/-- Embedding of `struct ByteBuffer { char * buff; uint32_t capacity; uint32_t
position; }`.  The backing memory is a total map from byte offset to byte
value; `capacity` and `position` are the two `uint32_t` fields. -/
structure ByteBuffer where
  buff : Nat → Nat
  capacity : Nat
  position : Nat

/-- `ByteBuffer::reset(char * buff, uint32_t capacity)`: rebind the backing
memory and capacity and zero the cursor. -/
def ByteBuffer.reset (_b : ByteBuffer) (buff : Nat → Nat) (capacity : Nat) : ByteBuffer :=
  { buff := buff, capacity := capacity, position := 0 }

/-- An outward boundary call made by the handler: `flushOutput(length)`
(recording the bytes `_ob.buff[0..length)` handed to the Java side) or
`finishOutput()`. -/
inductive BEvent where
  | flushOutput (bytes : List Nat)
  | finishOutput

/-- State of one `BatchHandler` instance: the input region `_ib`, the output
region `_ob`, the trace of outward boundary calls already emitted, and the
trace of `handleInput(buff, length)` hook invocations (recording the delivered
bytes and the length argument). -/
structure HState where
  ib : ByteBuffer
  ob : ByteBuffer
  events : List BEvent
  inputCalls : List (List Nat × Nat)

/-- `BatchHandler::flushOutput(uint32_t length)`.  Modelled from the spec: the
JNI body lives in `BatchHandler.cc` (not among the sources in scope); per the
boundary contract the adapter synchronously consumes exactly `length` bytes of
the output region's backing buffer starting at offset 0, which we record as a
`flushOutput` event carrying those bytes. -/
def flushOutput (st : HState) (length : Nat) : HState :=
  { st with events := st.events ++ [BEvent.flushOutput ((List.range length).map st.ob.buff)] }

/-- `BatchHandler::finishOutput()`.  Modelled from the spec: the JNI body lives
in `BatchHandler.cc`; it signals output-finished across the boundary, recorded
as a `finishOutput` event. -/
def finishOutput (st : HState) : HState :=
  { st with events := st.events ++ [BEvent.finishOutput] }

/-- `BatchHandler::onSetup(char *, uint32_t, char *, uint32_t)`.  Modelled from
the spec: the body lives in `BatchHandler.cc`; it binds both regions via
`ByteBuffer::reset` (zeroing both cursors) and then invokes the extension's
setup hook, a no-op in the base class.  The fresh instance has emitted no
boundary calls and no hook invocations. -/
def onSetup (ibuf : Nat → Nat) (icap : Nat) (obuf : Nat → Nat) (ocap : Nat) : HState :=
  { ib := ByteBuffer.reset ⟨fun _ => 0, 0, 0⟩ ibuf icap,
    ob := ByteBuffer.reset ⟨fun _ => 0, 0, 0⟩ obuf ocap,
    events := [],
    inputCalls := [] }

/-- `BatchHandler::onInputData(uint32_t length)`: if `length > _ib.capacity`,
`THROW_EXCEPTION(IOException, ...)` fires before any mutation (the returned
fault is `some` message and the state component is the argument state
unchanged); otherwise `_ib.position = length` and the `handleInput(_ib.buff,
length)` hook is invoked, recorded with the delivered bytes and length. -/
def onInputData (st : HState) (length : Nat) : HState × Option String :=
  if length > st.ib.capacity then
    (st, some "IOException: length larger than input buffer capacity")
  else
    ({ st with
        ib := { st.ib with position := length },
        inputCalls := st.inputCalls ++ [((List.range length).map st.ib.buff, length)] },
     none)

/-- One iteration of the `while (length > 0)` loop body of `BatchHandler::put`:
if `_ob.position + length > _ob.capacity` (a `uint32_t` comparison), call
`flushOutput(_ob.position)` and zero the cursor; then `remain = _ob.capacity -
_ob.position` (`uint32_t` subtraction), `cp = length < remain ? length :
remain`, `simple_memcpy(_ob.buff + _ob.position, buff, cp)`, advance the source
pointer and cursor by `cp` and shrink `length` by `cp`.  Returns the new state
and the bytes still to be written. -/
def putIter (st : HState) (data : List Nat) : HState × List Nat :=
  let st1 :=
    if (st.ob.position + data.length) % U32 > st.ob.capacity then
      let s := flushOutput st st.ob.position
      { s with ob := { s.ob with position := 0 } }
    else st
  let remain := (st1.ob.capacity + U32 - st1.ob.position) % U32
  let cp := if data.length < remain then data.length else remain
  let p := st1.ob.position
  let buff2 := fun i => if p ≤ i ∧ i < p + cp then data.getD (i - p) 0 else st1.ob.buff i
  ({ st1 with ob := { st1.ob with buff := buff2, position := (p + cp) % U32 } },
   data.drop cp)

/-- `BatchHandler::put(const char * buff, uint32_t length)`: the `while
(length > 0)` loop, iterating `putIter`.  The loop is embedded with explicit
fuel; `none` means the given fuel was exhausted before the loop finished. -/
def putLoop : Nat → HState → List Nat → Option HState
  | _, st, [] => some st
  | 0, _, _ :: _ => none
  | fuel + 1, st, d :: ds =>
    let r := putIter st (d :: ds)
    putLoop fuel r.1 r.2

/-- `BatchHandler::putInt(uint32_t v)`: if `_ob.position + 4 > _ob.capacity`
(a `uint32_t` comparison), call `flushOutput(_ob.position)` and zero the
cursor; then store `v` at `_ob.buff + _ob.position` in native (x86
little-endian) byte order and advance the cursor by 4. -/
def putInt (st : HState) (v : Nat) : HState :=
  let st1 :=
    if (st.ob.position + 4) % U32 > st.ob.capacity then
      let s := flushOutput st st.ob.position
      { s with ob := { s.ob with position := 0 } }
    else st
  let p := st1.ob.position
  let buff2 := fun i => if p ≤ i ∧ i < p + 4 then v / 256 ^ (i - p) % 256 else st1.ob.buff i
  { st1 with ob := { st1.ob with buff := buff2, position := (p + 4) % U32 } }

/-- `BatchHandler::flush()`: if `_ob.position > 0`, call
`flushOutput(_ob.position)` and zero the cursor; otherwise do nothing. -/
def flush (st : HState) : HState :=
  if st.ob.position > 0 then
    let s := flushOutput st st.ob.position
    { s with ob := { s.ob with position := 0 } }
  else st

/-- The default `BatchHandler::finish()`: `flush(); finishOutput();`. -/
def finish (st : HState) : HState :=
  finishOutput (flush st)

/-- The bytes currently buffered in the output region: offsets
`0 .. _ob.position`. -/
def bufferedBytes (st : HState) : List Nat :=
  (List.range st.ob.position).map st.ob.buff

/-- The byte blocks passed to `flushOutput`, in call order. -/
def flushBlocks (st : HState) : List (List Nat) :=
  st.events.filterMap fun e =>
    match e with
    | BEvent.flushOutput bs => some bs
    | BEvent.finishOutput => none

/-- Concatenation of all byte blocks passed to `flushOutput`, in call order. -/
def flushedBytes (st : HState) : List Nat :=
  (flushBlocks st).flatten

/-- Total number of bytes accounted for by the output path: bytes already
flushed plus bytes still buffered in the output region. -/
def totalWritten (st : HState) : Nat :=
  (flushedBytes st).length + st.ob.position

/-- Little-endian byte decomposition of a `uint32_t` value, as stored by
`putInt` (`*(uint32_t *)(_ob.buff + _ob.position) = v` on x86). -/
def intBytes (v : Nat) : List Nat :=
  (List.range 4).map fun k => v / 256 ^ k % 256

/-- A buffered-write operation available to a `BatchHandler` extension:
a `put` of a byte sequence or a `putInt` of a `uint32_t` value. -/
inductive WOp where
  | put (data : List Nat)
  | putInt (v : Nat)

/-- The full byte sequence written by a list of buffered-write operations,
in order. -/
def written : List WOp → List Nat
  | [] => []
  | WOp.put d :: t => d ++ written t
  | WOp.putInt v :: t => intBytes v ++ written t

/-- Run a list of buffered-write operations in order (each `put` with the given
fuel for its loop). -/
def runOps : Nat → HState → List WOp → Option HState
  | _, st, [] => some st
  | fuel, st, WOp.put d :: t =>
    match putLoop fuel st d with
    | some st1 => runOps fuel st1 t
    | none => none
  | fuel, st, WOp.putInt v :: t => runOps fuel (putInt st v) t

/-- Starting offsets, within the written byte stream, of the 4-byte segments
contributed by the `putInt` operations of an operation list; `acc` is the
number of bytes written before the list starts. -/
def segsFrom : Nat → List WOp → List Nat
  | _, [] => []
  | acc, WOp.put d :: t => segsFrom (acc + d.length) t
  | acc, WOp.putInt _ :: t => acc :: segsFrom (acc + 4) t

/-- The cut offsets of a block decomposition: `cuts bs` lists the cumulative
lengths `0, |b₁|, |b₁|+|b₂|, …` at which the concatenation of `bs` is cut into
its blocks. -/
def cuts : List (List Nat) → List Nat
  | [] => [0]
  | b :: t => 0 :: (cuts t).map (b.length + ·)

/-- Total length of a list of byte blocks. -/
def sumLens (bs : List (List Nat)) : Nat :=
  (bs.map List.length).sum

/-- `putLoop` diverges from the given state and data: no amount of fuel makes
the `while` loop of `put` finish. -/
def putLoopDiverges (st : HState) (data : List Nat) : Prop :=
  ∀ fuel, putLoop fuel st data = none

/-- A handler state freshly set up with input capacity `icap` and output
capacity `ocap`, both backing buffers zero-initialised. -/
def st0 (icap ocap : Nat) : HState :=
  { ib := ⟨fun _ => 0, icap, 0⟩, ob := ⟨fun _ => 0, ocap, 0⟩, events := [], inputCalls := [] }

/-! ### List helper lemmas -/

lemma map_range_congr (f g : Nat → Nat) (n : Nat) (h : ∀ i, i < n → f i = g i) :
    (List.range n).map f = (List.range n).map g := by
  induction n with
  | zero => simp
  | succ n ih =>
    rw [List.range_succ]
    simp only [List.map_append, List.map_cons, List.map_nil]
    rw [ih fun i hi => h i (Nat.lt_succ_of_lt hi), h n (Nat.lt_succ_self n)]

lemma map_range_add_split (f : Nat → Nat) (m n : Nat) :
    (List.range (m + n)).map f
      = (List.range m).map f ++ (List.range n).map fun j => f (m + j) := by
  rw [List.range_add, List.map_append, List.map_map]
  rfl

lemma map_range_getD (l : List Nat) (cp : Nat) (h : cp ≤ l.length) :
    ((List.range cp).map fun j => l.getD j 0) = l.take cp := by
  induction cp with
  | zero => simp
  | succ n ih =>
    rw [List.range_succ, List.map_append, ih (Nat.le_of_succ_le h), List.take_succ]
    simp [List.getD_eq_getElem?_getD, List.getElem?_eq_getElem (Nat.lt_of_succ_le h)]

/-- Splitting the buffered range after a `memcpy` of `cp` bytes of `data` at
offset `p`: the buffered bytes are the old ones followed by `data.take cp`. -/
lemma buffered_split (buffOld : Nat → Nat) (data : List Nat) (p cp : Nat)
    (hcp : cp ≤ data.length) :
    ((List.range (p + cp)).map fun i =>
        if p ≤ i ∧ i < p + cp then data.getD (i - p) 0 else buffOld i)
      = (List.range p).map buffOld ++ data.take cp := by
  rw [map_range_add_split]
  congr 1
  · apply map_range_congr
    intro i hi
    have hni : ¬(p ≤ i ∧ i < p + cp) := by omega
    simp [hni]
  · rw [map_range_congr _ (fun j => data.getD j 0) cp ?_, map_range_getD data cp hcp]
    intro j hj
    have hin : p ≤ p + j ∧ p + j < p + cp := by omega
    simp [hin, Nat.add_sub_cancel_left]

/-- Splitting the buffered range after `putInt` stores the four bytes of `v`
at offset `p`: the buffered bytes are the old ones followed by `intBytes v`. -/
lemma buffered_split_int (buffOld : Nat → Nat) (v p : Nat) :
    ((List.range (p + 4)).map fun i =>
        if p ≤ i ∧ i < p + 4 then v / 256 ^ (i - p) % 256 else buffOld i)
      = (List.range p).map buffOld ++ intBytes v := by
  rw [map_range_add_split]
  congr 1
  · apply map_range_congr
    intro i hi
    have hni : ¬(p ≤ i ∧ i < p + 4) := by omega
    simp [hni]
  · rw [intBytes]
    apply map_range_congr
    intro j hj
    have hin : p ≤ p + j ∧ p + j < p + 4 := by omega
    simp [hin, Nat.add_sub_cancel_left]

/-! ### Lemmas about the block-cut offsets -/

lemma sumLens_cons (c : List Nat) (t : List (List Nat)) :
    sumLens (c :: t) = c.length + sumLens t := by
  simp [sumLens]

lemma mem_cuts_le (bs : List (List Nat)) (b : Nat) (h : b ∈ cuts bs) :
    b ≤ sumLens bs := by
  induction bs generalizing b with
  | nil =>
    simp [cuts] at h
    simp [h, sumLens]
  | cons c t ih =>
    simp only [cuts, List.mem_cons, List.mem_map] at h
    rcases h with rfl | ⟨b', hb', rfl⟩
    · exact Nat.zero_le _
    · rw [sumLens_cons]
      exact Nat.add_le_add_left (ih b' hb') _

lemma mem_cuts_append_single (bs : List (List Nat)) (c : List Nat) (b : Nat)
    (h : b ∈ cuts (bs ++ [c])) : b ∈ cuts bs ∨ b = sumLens bs + c.length := by
  induction bs generalizing b with
  | nil =>
    simp only [List.nil_append, cuts, List.mem_cons, List.mem_map] at h
    rcases h with rfl | ⟨b', hb', rfl⟩
    · exact Or.inl (by simp [cuts])
    · simp [cuts] at hb'
      simp [hb', sumLens]
  | cons a t ih =>
    simp only [List.cons_append, cuts, List.mem_cons, List.mem_map] at h
    rcases h with rfl | ⟨b', hb', rfl⟩
    · exact Or.inl (by simp [cuts])
    · rcases ih b' hb' with h' | rfl
      · exact Or.inl (by simp only [cuts, List.mem_cons, List.mem_map]; right; exact ⟨b', h', rfl⟩)
      · right
        rw [sumLens_cons]
        omega

lemma sumLens_flushBlocks (st : HState) :
    sumLens (flushBlocks st) = (flushedBytes st).length := by
  rw [flushedBytes, List.length_flatten, sumLens]

/-! ### Projection lemmas for the boundary-call embedding -/

lemma length_bufferedBytes (st : HState) : (bufferedBytes st).length = st.ob.position := by
  simp [bufferedBytes]

lemma totalWritten_eq (st : HState) :
    totalWritten st = (flushedBytes st ++ bufferedBytes st).length := by
  simp [totalWritten, length_bufferedBytes]

lemma flushBlocks_flushOutput (st : HState) (n : Nat) :
    flushBlocks (flushOutput st n)
      = flushBlocks st ++ [(List.range n).map st.ob.buff] := by
  simp [flushBlocks, flushOutput, List.filterMap_append]

lemma flushedBytes_flushOutput (st : HState) (n : Nat) :
    flushedBytes (flushOutput st n)
      = flushedBytes st ++ (List.range n).map st.ob.buff := by
  rw [flushedBytes, flushBlocks_flushOutput, List.flatten_append, flushedBytes]
  simp

/-! ### One iteration of the `put` loop -/

/-- Everything one pass of `put`'s loop body guarantees, provided the cursor is
within the region (`position ≤ capacity`) and the capacity is a representable
`uint32_t` value: some `cp` bytes are consumed from the front of the data; the
capacity, input region and hook trace are untouched; the cursor stays within
the region; the bytes flushed so far followed by the bytes buffered account
exactly for the bytes consumed; any flush emitted cuts the stream at the
current total; and the iteration makes progress when `capacity ≥ 1` and the
`uint32_t` comparison `position + length > capacity` cannot wrap. -/
lemma putIter_spec (st : HState) (data : List Nat) (hne : data ≠ [])
    (hpc : st.ob.position ≤ st.ob.capacity) (hcU : st.ob.capacity < U32) :
    ∃ cp, cp ≤ data.length ∧ (putIter st data).2 = data.drop cp ∧
      (putIter st data).1.ob.capacity = st.ob.capacity ∧
      (putIter st data).1.ob.position ≤ st.ob.capacity ∧
      (putIter st data).1.ib = st.ib ∧
      (putIter st data).1.inputCalls = st.inputCalls ∧
      flushedBytes (putIter st data).1 ++ bufferedBytes (putIter st data).1
        = flushedBytes st ++ bufferedBytes st ++ data.take cp ∧
      (∀ b ∈ cuts (flushBlocks (putIter st data).1),
          b ∈ cuts (flushBlocks st) ∨ b = totalWritten st) ∧
      (1 ≤ st.ob.capacity → data.length + st.ob.capacity < U32 → 1 ≤ cp) := by
  have hlen : 0 < data.length := List.length_pos.mpr hne
  by_cases hcond : (st.ob.position + data.length) % U32 > st.ob.capacity
  · -- the loop body flushes the buffered bytes first
    have hrem : (st.ob.capacity + U32 - 0) % U32 = st.ob.capacity := by
      rw [Nat.sub_zero, Nat.add_mod_right, Nat.mod_eq_of_lt hcU]
    set cp := if data.length < st.ob.capacity then data.length else st.ob.capacity with hcp
    have hcple : cp ≤ data.length := by rw [hcp]; split <;> omega
    have hcpcap : cp ≤ st.ob.capacity := by rw [hcp]; split <;> omega
    have h1 : putIter st data =
        ({ ib := st.ib,
           ob :=
             { buff := fun i => if 0 ≤ i ∧ i < 0 + cp then data.getD (i - 0) 0 else st.ob.buff i,
               capacity := st.ob.capacity,
               position := (0 + cp) % U32 },
           events := st.events
             ++ [BEvent.flushOutput ((List.range st.ob.position).map st.ob.buff)],
           inputCalls := st.inputCalls },
         data.drop cp) := by
      simp only [putIter, if_pos hcond, flushOutput, hrem, hcp]
    have hposmod : (0 + cp) % U32 = 0 + cp := Nat.mod_eq_of_lt (by omega)
    rw [h1]
    refine ⟨cp, hcple, rfl, rfl, ?_, rfl, rfl, ?_, ?_, ?_⟩
    · show (0 + cp) % U32 ≤ st.ob.capacity
      rw [hposmod]; omega
    · have hfb : flushBlocks
          ({ ib := st.ib,
             ob :=
               { buff := fun i => if 0 ≤ i ∧ i < 0 + cp then data.getD (i - 0) 0
                   else st.ob.buff i,
                 capacity := st.ob.capacity,
                 position := (0 + cp) % U32 },
             events := st.events
               ++ [BEvent.flushOutput ((List.range st.ob.position).map st.ob.buff)],
             inputCalls := st.inputCalls } : HState)
          = flushBlocks st ++ [(List.range st.ob.position).map st.ob.buff] := by
        simp [flushBlocks, List.filterMap_append]
      rw [flushedBytes, hfb, List.flatten_append, bufferedBytes]
      simp only [hposmod]
      rw [buffered_split st.ob.buff data 0 cp hcple]
      simp [flushedBytes, bufferedBytes, List.append_assoc]
    · intro b hb
      have hfb : flushBlocks
          ({ ib := st.ib,
             ob :=
               { buff := fun i => if 0 ≤ i ∧ i < 0 + cp then data.getD (i - 0) 0
                   else st.ob.buff i,
                 capacity := st.ob.capacity,
                 position := (0 + cp) % U32 },
             events := st.events
               ++ [BEvent.flushOutput ((List.range st.ob.position).map st.ob.buff)],
             inputCalls := st.inputCalls } : HState)
          = flushBlocks st ++ [(List.range st.ob.position).map st.ob.buff] := by
        simp [flushBlocks, List.filterMap_append]
      rw [hfb] at hb
      rcases mem_cuts_append_single _ _ _ hb with h | h
      · exact Or.inl h
      · refine Or.inr ?_
        rw [h, sumLens_flushBlocks, totalWritten]
        simp
    · intro hc1 _hc2
      rw [hcp]; split <;> omega
  · -- the data fits (per the uint32 comparison): no flush, just a copy
    push_neg at hcond
    have hrem : (st.ob.capacity + U32 - st.ob.position) % U32
        = st.ob.capacity - st.ob.position := by
      have he : st.ob.capacity + U32 - st.ob.position
          = st.ob.capacity - st.ob.position + U32 := by omega
      rw [he, Nat.add_mod_right, Nat.mod_eq_of_lt (by omega)]
    set cp := if data.length < st.ob.capacity - st.ob.position then data.length
      else st.ob.capacity - st.ob.position with hcp
    have hcple : cp ≤ data.length := by rw [hcp]; split <;> omega
    have hsum : st.ob.position + cp ≤ st.ob.capacity := by rw [hcp]; split <;> omega
    have h1 : putIter st data =
        ({ ib := st.ib,
           ob :=
             { buff := fun i => if st.ob.position ≤ i ∧ i < st.ob.position + cp then
                   data.getD (i - st.ob.position) 0
                 else st.ob.buff i,
               capacity := st.ob.capacity,
               position := (st.ob.position + cp) % U32 },
           events := st.events,
           inputCalls := st.inputCalls },
         data.drop cp) := by
      simp only [putIter, if_neg (not_lt.mpr hcond), hrem, hcp]
    have hposmod : (st.ob.position + cp) % U32 = st.ob.position + cp :=
      Nat.mod_eq_of_lt (by omega)
    rw [h1]
    refine ⟨cp, hcple, rfl, rfl, ?_, rfl, rfl, ?_, ?_, ?_⟩
    · show (st.ob.position + cp) % U32 ≤ st.ob.capacity
      rw [hposmod]; omega
    · have hfb : flushBlocks
          ({ ib := st.ib,
             ob :=
               { buff := fun i => if st.ob.position ≤ i ∧ i < st.ob.position + cp then
                     data.getD (i - st.ob.position) 0
                   else st.ob.buff i,
                 capacity := st.ob.capacity,
                 position := (st.ob.position + cp) % U32 },
             events := st.events,
             inputCalls := st.inputCalls } : HState)
          = flushBlocks st := by
        simp [flushBlocks]
      rw [flushedBytes, hfb, bufferedBytes]
      simp only [hposmod]
      rw [buffered_split st.ob.buff data st.ob.position cp hcple]
      simp [flushedBytes, bufferedBytes, List.append_assoc]
    · intro b hb
      have hfb : flushBlocks
          ({ ib := st.ib,
             ob :=
               { buff := fun i => if st.ob.position ≤ i ∧ i < st.ob.position + cp then
                     data.getD (i - st.ob.position) 0
                   else st.ob.buff i,
                 capacity := st.ob.capacity,
                 position := (st.ob.position + cp) % U32 },
             events := st.events,
             inputCalls := st.inputCalls } : HState)
          = flushBlocks st := by
        simp [flushBlocks]
      rw [hfb] at hb
      exact Or.inl hb
    · intro hc1 hc2
      have hmod : (st.ob.position + data.length) % U32 = st.ob.position + data.length :=
        Nat.mod_eq_of_lt (by omega)
      rw [hmod] at hcond
      rw [hcp]; split <;> omega

/-! ### The full `put` loop -/

/-- What a terminating run of `put`'s `while` loop guarantees, from any state
whose cursor is within the region: capacity, input region and hook trace
untouched; cursor still within the region; flushed-plus-buffered bytes grown by
exactly the data written; and every new flush cuts the stream at or after the
total that was already accounted for on entry. -/
lemma putLoop_spec : ∀ (fuel : Nat) (data : List Nat) (st st' : HState),
    st.ob.position ≤ st.ob.capacity → st.ob.capacity < U32 →
    putLoop fuel st data = some st' →
    st'.ob.capacity = st.ob.capacity ∧
    st'.ob.position ≤ st.ob.capacity ∧
    st'.ib = st.ib ∧
    st'.inputCalls = st.inputCalls ∧
    flushedBytes st' ++ bufferedBytes st' = flushedBytes st ++ bufferedBytes st ++ data ∧
    (∀ b ∈ cuts (flushBlocks st'), b ∈ cuts (flushBlocks st) ∨ totalWritten st ≤ b) := by
  intro fuel
  induction fuel with
  | zero =>
    intro data st st' hpc hcU h
    cases data with
    | nil =>
      simp only [putLoop, Option.some.injEq] at h
      subst h
      exact ⟨rfl, hpc, rfl, rfl, by simp, fun b hb => Or.inl hb⟩
    | cons d ds => exact Option.noConfusion h
  | succ fuel ih =>
    intro data st st' hpc hcU h
    cases data with
    | nil =>
      simp only [putLoop, Option.some.injEq] at h
      subst h
      exact ⟨rfl, hpc, rfl, rfl, by simp, fun b hb => Or.inl hb⟩
    | cons d ds =>
      simp only [putLoop] at h
      obtain ⟨cp, hcple, hrest, hcap1, hpos1, hib1, hic1, hcons1, hcuts1, _⟩ :=
        putIter_spec st (d :: ds) (by simp) hpc hcU
      rw [hrest] at h
      obtain ⟨icap, ipos, iib, iic, icons, icuts⟩ :=
        ih ((d :: ds).drop cp) (putIter st (d :: ds)).1 st'
          (by rw [hcap1]; exact hpos1) (by rw [hcap1]; exact hcU) h
      rw [hcap1] at icap ipos
      refine ⟨icap, ipos, ?_, ?_, ?_, ?_⟩
      · rw [iib, hib1]
      · rw [iic, hic1]
      · rw [icons, hcons1, List.append_assoc, List.take_append_drop]
      · intro b hb
        rcases icuts b hb with hbA | hWA
        · rcases hcuts1 b hbA with h' | h'
          · exact Or.inl h'
          · exact Or.inr (le_of_eq h'.symm)
        · refine Or.inr (le_trans ?_ hWA)
          rw [totalWritten_eq, totalWritten_eq, hcons1]
          simp [List.length_append]

/-! ### `putInt` -/

/-- What `putInt` guarantees when the output capacity is at least 4 (the
configuration the spec requires of handlers that use `write_uint32`) and the
cursor is within the region: capacity, input region and hook trace untouched;
the cursor lands at least 4 and at most `capacity`; flushed-plus-buffered
bytes grow by exactly the four bytes of `v`; any flush emitted cuts the
stream exactly at the entry total (so it carries no byte of `v`); and the four
bytes of `v` sit contiguously right below the new cursor. -/
lemma putInt_spec (st : HState) (v : Nat)
    (h4 : 4 ≤ st.ob.capacity) (hU : st.ob.capacity + 4 < U32)
    (hpc : st.ob.position ≤ st.ob.capacity) :
    (putInt st v).ob.capacity = st.ob.capacity ∧
    (putInt st v).ob.position ≤ st.ob.capacity ∧
    4 ≤ (putInt st v).ob.position ∧
    (putInt st v).ib = st.ib ∧
    (putInt st v).inputCalls = st.inputCalls ∧
    flushedBytes (putInt st v) ++ bufferedBytes (putInt st v)
      = flushedBytes st ++ bufferedBytes st ++ intBytes v ∧
    (∀ b ∈ cuts (flushBlocks (putInt st v)),
        b ∈ cuts (flushBlocks st) ∨ b = totalWritten st) ∧
    (∀ k, k < 4 → (putInt st v).ob.buff ((putInt st v).ob.position - 4 + k)
        = v / 256 ^ k % 256) := by
  by_cases hcond : (st.ob.position + 4) % U32 > st.ob.capacity
  · -- fewer than 4 bytes of room (per the uint32 comparison): flush first
    have h1 : putInt st v =
        ({ ib := st.ib,
           ob :=
             { buff := fun i => if 0 ≤ i ∧ i < 0 + 4 then v / 256 ^ (i - 0) % 256
                 else st.ob.buff i,
               capacity := st.ob.capacity,
               position := (0 + 4) % U32 },
           events := st.events
             ++ [BEvent.flushOutput ((List.range st.ob.position).map st.ob.buff)],
           inputCalls := st.inputCalls } : HState) := by
      simp only [putInt, if_pos hcond, flushOutput]
    have hposmod : (0 + 4) % U32 = 0 + 4 := Nat.mod_eq_of_lt (by omega)
    rw [h1]
    refine ⟨rfl, ?_, ?_, rfl, rfl, ?_, ?_, ?_⟩
    · show (0 + 4) % U32 ≤ st.ob.capacity
      rw [hposmod]; omega
    · show 4 ≤ (0 + 4) % U32
      rw [hposmod]
    · have hfb : flushBlocks
          ({ ib := st.ib,
             ob :=
               { buff := fun i => if 0 ≤ i ∧ i < 0 + 4 then v / 256 ^ (i - 0) % 256
                   else st.ob.buff i,
                 capacity := st.ob.capacity,
                 position := (0 + 4) % U32 },
             events := st.events
               ++ [BEvent.flushOutput ((List.range st.ob.position).map st.ob.buff)],
             inputCalls := st.inputCalls } : HState)
          = flushBlocks st ++ [(List.range st.ob.position).map st.ob.buff] := by
        simp [flushBlocks, List.filterMap_append]
      rw [flushedBytes, hfb, List.flatten_append, bufferedBytes]
      simp only [hposmod]
      rw [buffered_split_int st.ob.buff v 0]
      simp [flushedBytes, bufferedBytes, List.append_assoc]
    · intro b hb
      have hfb : flushBlocks
          ({ ib := st.ib,
             ob :=
               { buff := fun i => if 0 ≤ i ∧ i < 0 + 4 then v / 256 ^ (i - 0) % 256
                   else st.ob.buff i,
                 capacity := st.ob.capacity,
                 position := (0 + 4) % U32 },
             events := st.events
               ++ [BEvent.flushOutput ((List.range st.ob.position).map st.ob.buff)],
             inputCalls := st.inputCalls } : HState)
          = flushBlocks st ++ [(List.range st.ob.position).map st.ob.buff] := by
        simp [flushBlocks, List.filterMap_append]
      rw [hfb] at hb
      rcases mem_cuts_append_single _ _ _ hb with h | h
      · exact Or.inl h
      · refine Or.inr ?_
        rw [h, sumLens_flushBlocks, totalWritten]
        simp
    · intro k hk
      have hidx : (0 + 4) % U32 - 4 + k = k := by rw [hposmod]; omega
      show (if 0 ≤ (0 + 4) % U32 - 4 + k ∧ (0 + 4) % U32 - 4 + k < 0 + 4
          then v / 256 ^ ((0 + 4) % U32 - 4 + k - 0) % 256
          else st.ob.buff ((0 + 4) % U32 - 4 + k)) = v / 256 ^ k % 256
      rw [hidx, if_pos ⟨Nat.zero_le _, by omega⟩]
      simp
  · -- at least 4 bytes of room: store in place
    push_neg at hcond
    have hposmod : (st.ob.position + 4) % U32 = st.ob.position + 4 :=
      Nat.mod_eq_of_lt (by omega)
    have hle : st.ob.position + 4 ≤ st.ob.capacity := by rw [hposmod] at hcond; exact hcond
    have h1 : putInt st v =
        ({ ib := st.ib,
           ob :=
             { buff := fun i => if st.ob.position ≤ i ∧ i < st.ob.position + 4 then
                   v / 256 ^ (i - st.ob.position) % 256
                 else st.ob.buff i,
               capacity := st.ob.capacity,
               position := (st.ob.position + 4) % U32 },
           events := st.events,
           inputCalls := st.inputCalls } : HState) := by
      simp only [putInt, if_neg (not_lt.mpr hcond)]
    rw [h1]
    refine ⟨rfl, ?_, ?_, rfl, rfl, ?_, ?_, ?_⟩
    · show (st.ob.position + 4) % U32 ≤ st.ob.capacity
      rw [hposmod]; omega
    · show 4 ≤ (st.ob.position + 4) % U32
      rw [hposmod]; omega
    · have hfb : flushBlocks
          ({ ib := st.ib,
             ob :=
               { buff := fun i => if st.ob.position ≤ i ∧ i < st.ob.position + 4 then
                     v / 256 ^ (i - st.ob.position) % 256
                   else st.ob.buff i,
                 capacity := st.ob.capacity,
                 position := (st.ob.position + 4) % U32 },
             events := st.events,
             inputCalls := st.inputCalls } : HState)
          = flushBlocks st := by
        simp [flushBlocks]
      rw [flushedBytes, hfb, bufferedBytes]
      simp only [hposmod]
      rw [buffered_split_int st.ob.buff v st.ob.position]
      simp [flushedBytes, bufferedBytes, List.append_assoc]
    · intro b hb
      have hfb : flushBlocks
          ({ ib := st.ib,
             ob :=
               { buff := fun i => if st.ob.position ≤ i ∧ i < st.ob.position + 4 then
                     v / 256 ^ (i - st.ob.position) % 256
                   else st.ob.buff i,
                 capacity := st.ob.capacity,
                 position := (st.ob.position + 4) % U32 },
             events := st.events,
             inputCalls := st.inputCalls } : HState)
          = flushBlocks st := by
        simp [flushBlocks]
      rw [hfb] at hb
      exact Or.inl hb
    · intro k hk
      have hidx : (st.ob.position + 4) % U32 - 4 + k = st.ob.position + k := by
        rw [hposmod]; omega
      show (if st.ob.position ≤ (st.ob.position + 4) % U32 - 4 + k ∧
            (st.ob.position + 4) % U32 - 4 + k < st.ob.position + 4
          then v / 256 ^ ((st.ob.position + 4) % U32 - 4 + k - st.ob.position) % 256
          else st.ob.buff ((st.ob.position + 4) % U32 - 4 + k)) = v / 256 ^ k % 256
      rw [hidx, if_pos ⟨by omega, by omega⟩]
      have hsub : st.ob.position + k - st.ob.position = k := by omega
      rw [hsub]

/-! ### Runs of buffered-write operations -/

/-- Master invariant for a run of `put`/`putInt` operations from a state whose
cursor is within the region, with `capacity ≥ 4` (the configuration the spec
requires of handlers using `write_uint32`) and a representable capacity:
bookkeeping is preserved; flushed-plus-buffered bytes grow by exactly the
written stream; flush cuts only ever appear at or after the entry total; and
every 4-byte `putInt` segment is completed and never has a flush cut strictly
inside it. -/
lemma runOps_spec : ∀ (ops : List WOp) (fuel : Nat) (st st' : HState),
    4 ≤ st.ob.capacity → st.ob.capacity + 4 < U32 → st.ob.position ≤ st.ob.capacity →
    runOps fuel st ops = some st' →
    st'.ob.capacity = st.ob.capacity ∧
    st'.ob.position ≤ st.ob.capacity ∧
    st'.ib = st.ib ∧
    st'.inputCalls = st.inputCalls ∧
    flushedBytes st' ++ bufferedBytes st' = flushedBytes st ++ bufferedBytes st ++ written ops ∧
    (∀ b ∈ cuts (flushBlocks st'), b ∈ cuts (flushBlocks st) ∨ totalWritten st ≤ b) ∧
    (∀ o ∈ segsFrom (totalWritten st) ops,
        o + 4 ≤ totalWritten st' ∧
        ∀ b ∈ cuts (flushBlocks st'), b ≤ o ∨ o + 4 ≤ b) := by
  intro ops
  induction ops with
  | nil =>
    intro fuel st st' h4 hU hpc h
    simp only [runOps, Option.some.injEq] at h
    subst h
    refine ⟨rfl, hpc, rfl, rfl, by simp [written], fun b hb => Or.inl hb, ?_⟩
    intro o ho
    simp [segsFrom] at ho
  | cons op t ih =>
    intro fuel st st' h4 hU hpc h
    cases op with
    | put d =>
      cases hpl : putLoop fuel st d with
      | none =>
        simp only [runOps, hpl] at h
        exact Option.noConfusion h
      | some st1 =>
        simp only [runOps, hpl] at h
        obtain ⟨lcap, lpos, lib, lic, lcons, lcuts⟩ :=
          putLoop_spec fuel d st st1 hpc (by omega) hpl
        obtain ⟨icap, ipos, iib, iic, icons, icuts, isegs⟩ :=
          ih fuel st1 st' (by rw [lcap]; omega) (by rw [lcap]; omega)
            (by rw [lcap]; exact lpos) h
        have hW1 : totalWritten st1 = totalWritten st + d.length := by
          rw [totalWritten_eq, totalWritten_eq, lcons]
          simp only [List.length_append]
        rw [lcap] at icap ipos
        refine ⟨icap, ipos, by rw [iib, lib], by rw [iic, lic], ?_, ?_, ?_⟩
        · rw [icons, lcons]
          simp only [written]
          rw [List.append_assoc]
        · intro b hb
          rcases icuts b hb with hb1 | hW
          · rcases lcuts b hb1 with h' | h'
            · exact Or.inl h'
            · exact Or.inr h'
          · exact Or.inr (by omega)
        · intro o ho
          simp only [segsFrom] at ho
          rw [← hW1] at ho
          exact isegs o ho
    | putInt v =>
      simp only [runOps] at h
      obtain ⟨pcap, ppos, p4, pib, pic, pcons, pcuts, _⟩ := putInt_spec st v h4 hU hpc
      obtain ⟨icap, ipos, iib, iic, icons, icuts, isegs⟩ :=
        ih fuel (putInt st v) st' (by rw [pcap]; omega) (by rw [pcap]; omega)
          (by rw [pcap]; exact ppos) h
      have hW1 : totalWritten (putInt st v) = totalWritten st + 4 := by
        rw [totalWritten_eq, totalWritten_eq, pcons]
        have hlen4 : (intBytes v).length = 4 := by simp [intBytes]
        simp only [List.length_append, hlen4]
      rw [pcap] at icap ipos
      refine ⟨icap, ipos, by rw [iib, pib], by rw [iic, pic], ?_, ?_, ?_⟩
      · rw [icons, pcons]
        simp only [written]
        rw [List.append_assoc]
      · intro b hb
        rcases icuts b hb with hb1 | hW
        · rcases pcuts b hb1 with h' | h'
          · exact Or.inl h'
          · exact Or.inr (le_of_eq h'.symm)
        · exact Or.inr (by omega)
      · intro o ho
        simp only [segsFrom] at ho
        rcases List.mem_cons.mp ho with rfl | ho'
        · constructor
          · have hW' : totalWritten (putInt st v) ≤ totalWritten st' := by
              rw [totalWritten_eq, totalWritten_eq, icons]
              simp only [List.length_append]
              omega
            omega
          · intro b hb
            rcases icuts b hb with hb1 | hW
            · rcases pcuts b hb1 with h' | h'
              · refine Or.inl ?_
                have hle := mem_cuts_le _ _ h'
                rw [sumLens_flushBlocks] at hle
                rw [totalWritten]
                omega
              · exact Or.inl (le_of_eq h')
            · exact Or.inr (by omega)
        · rw [← hW1] at ho'
          exact isegs o ho'

/-- Runs consisting only of `put` operations keep the cursor within the
region, with no assumption on the capacity beyond `uint32_t`
representability. -/
lemma runOps_puts_pos : ∀ (datas : List (List Nat)) (fuel : Nat) (st st' : HState),
    st.ob.position ≤ st.ob.capacity → st.ob.capacity < U32 →
    runOps fuel st (datas.map WOp.put) = some st' →
    st'.ob.position ≤ st'.ob.capacity := by
  intro datas
  induction datas with
  | nil =>
    intro fuel st st' hpc hcU h
    simp only [List.map_nil, runOps, Option.some.injEq] at h
    subst h
    exact hpc
  | cons d t ih =>
    intro fuel st st' hpc hcU h
    simp only [List.map_cons] at h
    cases hpl : putLoop fuel st d with
    | none =>
      simp only [runOps, hpl] at h
      exact Option.noConfusion h
    | some st1 =>
      simp only [runOps, hpl] at h
      obtain ⟨lcap, lpos, _, _, _, _⟩ := putLoop_spec fuel d st st1 hpc hcU hpl
      exact ih fuel st1 st' (by rw [lcap]; exact lpos) (by rw [lcap]; exact hcU) h

/-! ### Termination and divergence of the `put` loop -/

/-- With a positive capacity, a cursor within the region, and the `uint32_t`
comparison `position + length > capacity` unable to wrap, `put`'s loop
finishes within `length + 1` iterations. -/
lemma putLoop_total : ∀ (fuel : Nat) (data : List Nat) (st : HState),
    1 ≤ st.ob.capacity → st.ob.position ≤ st.ob.capacity →
    data.length + st.ob.capacity < U32 → data.length < fuel →
    (putLoop fuel st data).isSome = true := by
  intro fuel
  induction fuel with
  | zero => intro data st _ _ _ h; omega
  | succ fuel ih =>
    intro data st h1 hpc hU hlt
    cases data with
    | nil => simp [putLoop]
    | cons d ds =>
      simp only [putLoop]
      obtain ⟨cp, hcple, hrest, hcap1, hpos1, _, _, _, _, hprog⟩ :=
        putIter_spec st (d :: ds) (by simp) hpc (by omega)
      have hcp1 : 1 ≤ cp := hprog h1 hU
      have hdlen : ((d :: ds).drop cp).length = (d :: ds).length - cp := by simp
      rw [hrest]
      apply ih
      · rw [hcap1]; exact h1
      · rw [hcap1]; exact hpos1
      · rw [hcap1]; omega
      · omega

/-- With output capacity 0 and an empty buffer, one pass of `put`'s loop body
copies nothing (`remain = 0`, so `cp = 0`) and leaves capacity and cursor at 0
with the data untouched. -/
lemma putIter_cap0 (st : HState) (d : Nat) (ds : List Nat)
    (hcap : st.ob.capacity = 0) (hpos : st.ob.position = 0) :
    ((putIter st (d :: ds)).1.ob.capacity = 0 ∧ (putIter st (d :: ds)).1.ob.position = 0) ∧
      (putIter st (d :: ds)).2 = d :: ds := by
  by_cases hcond : (st.ob.position + (d :: ds).length) % U32 > st.ob.capacity
  · refine ⟨⟨?_, ?_⟩, ?_⟩ <;>
    · simp only [putIter]
      rw [if_pos hcond]
      simp [flushOutput, hcap, hpos, Nat.mod_self]
  · refine ⟨⟨?_, ?_⟩, ?_⟩ <;>
    · simp only [putIter]
      rw [if_neg hcond]
      simp [hcap, hpos, Nat.mod_self]

/-- With output capacity 0, `put` of a nonempty byte sequence never finishes:
every iteration makes no progress, so no fuel suffices. -/
lemma putLoop_cap0 : ∀ (fuel : Nat) (st : HState) (d : Nat) (ds : List Nat),
    st.ob.capacity = 0 → st.ob.position = 0 →
    putLoop fuel st (d :: ds) = none := by
  intro fuel
  induction fuel with
  | zero => intro st d ds _ _; rfl
  | succ fuel ih =>
    intro st d ds hcap hpos
    obtain ⟨⟨h1, h2⟩, h3⟩ := putIter_cap0 st d ds hcap hpos
    simp only [putLoop]
    rw [h3]
    exact ih _ d ds h1 h2

/-! ### Claim theorems -/

/-- C1 (flush completeness): for every sequence of `put`/`putInt` calls on a
handler whose output region was set up (no boundary calls yet, cursor at 0,
and a capacity that is at least 4 — the configuration the spec requires of
handlers using `write_uint32` — and `uint32_t`-representable), whenever the
run finishes, the concatenation of all byte blocks passed to `flushOutput` in
call order, followed by the bytes still buffered at offsets
`0 .. position`, equals exactly the concatenation of all bytes written. -/
theorem flush_completeness (st : HState) (ops : List WOp) (fuel : Nat)
    (hev : st.events = []) (hpos : st.ob.position = 0)
    (h4 : 4 ≤ st.ob.capacity) (hU : st.ob.capacity + 4 < U32) :
    ∀ st', runOps fuel st ops = some st' →
      flushedBytes st' ++ bufferedBytes st' = written ops := by
  intro st' h
  obtain ⟨_, _, _, _, hcons, _, _⟩ :=
    runOps_spec ops fuel st st' h4 hU (by omega) h
  rw [hcons]
  simp [flushedBytes, flushBlocks, hev, bufferedBytes, hpos]

theorem flush_completeness_witness :
    ((st0 64 8).events = [] ∧ (st0 64 8).ob.position = 0 ∧
      4 ≤ (st0 64 8).ob.capacity ∧ (st0 64 8).ob.capacity + 4 < U32) ∧
    (∀ st', runOps 12 (st0 64 8)
        [WOp.put [1, 2, 3, 4, 5], WOp.putInt 66051, WOp.put [9]] = some st' →
      flushedBytes st' ++ bufferedBytes st'
        = written [WOp.put [1, 2, 3, 4, 5], WOp.putInt 66051, WOp.put [9]]) :=
  ⟨⟨rfl, rfl, by decide, by decide⟩,
    flush_completeness (st0 64 8) _ 12 rfl rfl (by decide) (by decide)⟩

/-- C2 (capacity invariant): for every sequence of `put` calls from any state
whose cursor is within the region (as after setup, where the cursor is 0),
the output region's position is at most its capacity whenever the run
returns; since every sequence of calls is quantified, this holds at the
moment each individual `put` call returns. -/
theorem put_capacity_invariant (st : HState) (datas : List (List Nat)) (fuel : Nat)
    (hpc : st.ob.position ≤ st.ob.capacity) (hcU : st.ob.capacity < U32) :
    ∀ st', runOps fuel st (datas.map WOp.put) = some st' →
      st'.ob.position ≤ st'.ob.capacity :=
  fun st' h => runOps_puts_pos datas fuel st st' hpc hcU h

theorem put_capacity_invariant_witness :
    ((st0 64 4).ob.position ≤ (st0 64 4).ob.capacity ∧ (st0 64 4).ob.capacity < U32) ∧
    (∀ st', runOps 10 (st0 64 4) ([[1, 2, 3], [4, 5, 6, 7, 8, 9]].map WOp.put) = some st' →
      st'.ob.position ≤ st'.ob.capacity) :=
  ⟨⟨by decide, by decide⟩,
    put_capacity_invariant (st0 64 4) [[1, 2, 3], [4, 5, 6, 7, 8, 9]] 10
      (by decide) (by decide)⟩

/-- C3 (integer atomicity): in any finished run of `put`/`putInt` calls from a
set-up handler (capacity at least 4 and `uint32_t`-representable), no flush
cut falls strictly inside the 4-byte segment contributed by any `putInt`
call: every cut offset `b` of the emitted flush blocks satisfies `b ≤ o` or
`o + 4 ≤ b` for each segment start `o`, so the 4 bytes are never split across
two `flushOutput` calls — `putInt` flushes the buffered bytes first whenever
fewer than 4 bytes of room remain and then buffers the whole integer
contiguously. -/
theorem putInt_never_split (st : HState) (ops : List WOp) (fuel : Nat)
    (hev : st.events = []) (hpos : st.ob.position = 0)
    (h4 : 4 ≤ st.ob.capacity) (hU : st.ob.capacity + 4 < U32) :
    ∀ st', runOps fuel st ops = some st' →
      ∀ o ∈ segsFrom 0 ops, ∀ b ∈ cuts (flushBlocks st'), b ≤ o ∨ o + 4 ≤ b := by
  intro st' h o ho b hb
  have hW : totalWritten st = 0 := by
    simp [totalWritten, flushedBytes, flushBlocks, hev, hpos]
  obtain ⟨_, _, _, _, _, _, hsegs⟩ :=
    runOps_spec ops fuel st st' h4 hU (by omega) h
  rw [hW] at hsegs
  exact (hsegs o ho).2 b hb

theorem putInt_never_split_witness :
    ((st0 64 4).events = [] ∧ (st0 64 4).ob.position = 0 ∧
      4 ≤ (st0 64 4).ob.capacity ∧ (st0 64 4).ob.capacity + 4 < U32) ∧
    (∀ st', runOps 12 (st0 64 4) [WOp.putInt 1, WOp.put [1, 2, 3], WOp.putInt 7] = some st' →
      ∀ o ∈ segsFrom 0 [WOp.putInt 1, WOp.put [1, 2, 3], WOp.putInt 7],
        ∀ b ∈ cuts (flushBlocks st'), b ≤ o ∨ o + 4 ≤ b) :=
  ⟨⟨rfl, rfl, by decide, by decide⟩,
    putInt_never_split (st0 64 4) _ 12 rfl rfl (by decide) (by decide)⟩

/-- C4 (bounds enforcement): whenever `onInputData` is called with a length
strictly greater than the input region's capacity, it fails with the
`IOException` bounds fault and the extension's `handleInput` hook is not
invoked (the hook-invocation trace is unchanged). -/
theorem onInputData_bounds_fault (st : HState) (length : Nat)
    (h : st.ib.capacity < length) :
    (onInputData st length).2
        = some "IOException: length larger than input buffer capacity" ∧
    (onInputData st length).1.inputCalls = st.inputCalls := by
  simp [onInputData, h]

theorem onInputData_bounds_fault_witness :
    ((st0 64 8).ib.capacity < 100) ∧
    ((onInputData (st0 64 8) 100).2
        = some "IOException: length larger than input buffer capacity" ∧
     (onInputData (st0 64 8) 100).1.inputCalls = (st0 64 8).inputCalls) :=
  ⟨by decide, onInputData_bounds_fault (st0 64 8) 100 (by decide)⟩

/-- C5 (Scenario A, amended): with output capacity 8 and an initially empty
output region, writing the ten bytes 1..10 via a single `put` call emits
exactly two `flushOutput` calls — the first carrying no bytes (the loop body
flushes before copying, while the region is still empty) and the second
carrying the first 8 bytes — and leaves the remaining 2 bytes buffered in the
region (position 2). -/
theorem put_scenarioA :
    (putLoop 11 (st0 64 8) [1, 2, 3, 4, 5, 6, 7, 8, 9, 10]).map flushBlocks
        = some [[], [1, 2, 3, 4, 5, 6, 7, 8]] ∧
    (putLoop 11 (st0 64 8) [1, 2, 3, 4, 5, 6, 7, 8, 9, 10]).map bufferedBytes
        = some [9, 10] ∧
    (putLoop 11 (st0 64 8) [1, 2, 3, 4, 5, 6, 7, 8, 9, 10]).map (fun s => s.ob.position)
        = some 2 := by
  decide

/-- C5 (counterexample to the claim as stated): in Scenario A the first
`flushOutput` call does not carry the first 8 bytes with the second carrying
none — the order is the reverse. -/
theorem put_scenarioA_claim_false :
    (putLoop 11 (st0 64 8) [1, 2, 3, 4, 5, 6, 7, 8, 9, 10]).map flushBlocks
        ≠ some [[1, 2, 3, 4, 5, 6, 7, 8], []] := by
  decide

/-- C6 (amended totality of the write loop): for every data length — including
lengths larger than the full output capacity — a single `put` call terminates
within `length + 1` loop iterations, provided the output capacity is at least
1 and `length + capacity < 2^32` (so the `uint32_t` comparison in the loop
cannot wrap), starting from any cursor within the region. -/
theorem put_terminates_amended (st : HState) (data : List Nat)
    (h1 : 1 ≤ st.ob.capacity) (hpc : st.ob.position ≤ st.ob.capacity)
    (hU : data.length + st.ob.capacity < U32) :
    (putLoop (data.length + 1) st data).isSome = true :=
  putLoop_total (data.length + 1) data st h1 hpc hU (Nat.lt_succ_self _)

theorem put_terminates_amended_witness :
    (1 ≤ (st0 64 4).ob.capacity ∧ (st0 64 4).ob.position ≤ (st0 64 4).ob.capacity ∧
      ([1, 2, 3, 4, 5, 6, 7, 8, 9] : List Nat).length + (st0 64 4).ob.capacity < U32) ∧
    (putLoop (([1, 2, 3, 4, 5, 6, 7, 8, 9] : List Nat).length + 1) (st0 64 4)
        [1, 2, 3, 4, 5, 6, 7, 8, 9]).isSome = true :=
  ⟨⟨by decide, by decide, by decide⟩,
    put_terminates_amended (st0 64 4) [1, 2, 3, 4, 5, 6, 7, 8, 9]
      (by decide) (by decide) (by decide)⟩

/-- C6 (counterexample to the claim as stated): with output capacity 0 (a
legal `onSetup` argument), a single `put` of one byte never terminates — the
loop body flushes zero bytes and copies zero bytes forever. -/
theorem put_cap0_diverges : putLoopDiverges (st0 64 0) [7] :=
  fun fuel => putLoop_cap0 fuel (st0 64 0) 7 [] rfl rfl

/-- C7 (finish ordering): the default `finish()` first flushes any buffered
output and then signals output-finished — it appends to the boundary-call
trace one `flushOutput(position)` call (carrying the buffered bytes) exactly
when `position > 0`, followed by exactly one `finishOutput` call; in
particular, `onSetup` followed immediately by `finish` with nothing written
emits exactly one `finishOutput` call and zero `flushOutput` calls. -/
theorem finish_order :
    (∀ st : HState,
        (finish st).events
          = st.events
            ++ (if 0 < st.ob.position then [BEvent.flushOutput (bufferedBytes st)] else [])
            ++ [BEvent.finishOutput]) ∧
    (∀ (ibuf : Nat → Nat) (icap : Nat) (obuf : Nat → Nat) (ocap : Nat),
        (finish (onSetup ibuf icap obuf ocap)).events = [BEvent.finishOutput]) := by
  constructor
  · intro st
    by_cases h : 0 < st.ob.position
    · simp [finish, flush, h, finishOutput, flushOutput, bufferedBytes]
    · simp [finish, flush, h, finishOutput]
  · intro ibuf icap obuf ocap
    simp [finish, flush, finishOutput, onSetup, ByteBuffer.reset]

/-- C8 (`putInt` safety): if the output region's capacity is at least 4 (and
`uint32_t`-representable) and the cursor is within the region, then a
`putInt` call leaves the cursor at most `capacity` and at least 4, with the
four little-endian bytes of `v` stored at offsets `position - 4 + k` for
`k < 4` — all strictly below `capacity`, hence entirely within the region's
bounds. -/
theorem putInt_in_bounds (st : HState) (v : Nat)
    (h4 : 4 ≤ st.ob.capacity) (hU : st.ob.capacity + 4 < U32)
    (hpc : st.ob.position ≤ st.ob.capacity) :
    (putInt st v).ob.position ≤ (putInt st v).ob.capacity ∧
    4 ≤ (putInt st v).ob.position ∧
    ∀ k, k < 4 → (putInt st v).ob.buff ((putInt st v).ob.position - 4 + k)
        = v / 256 ^ k % 256 := by
  obtain ⟨hcap, hpos, h4', _, _, _, _, hbytes⟩ := putInt_spec st v h4 hU hpc
  exact ⟨by rw [hcap]; exact hpos, h4', hbytes⟩

theorem putInt_in_bounds_witness :
    (4 ≤ (st0 64 8).ob.capacity ∧ (st0 64 8).ob.capacity + 4 < U32 ∧
      (st0 64 8).ob.position ≤ (st0 64 8).ob.capacity) ∧
    ((putInt (st0 64 8) 305419896).ob.position ≤ (putInt (st0 64 8) 305419896).ob.capacity ∧
      4 ≤ (putInt (st0 64 8) 305419896).ob.position ∧
      ∀ k, k < 4 → (putInt (st0 64 8) 305419896).ob.buff
          ((putInt (st0 64 8) 305419896).ob.position - 4 + k) = 305419896 / 256 ^ k % 256) :=
  ⟨⟨by decide, by decide, by decide⟩,
    putInt_in_bounds (st0 64 8) 305419896 (by decide) (by decide) (by decide)⟩

/-- C9 (`onInputData` success): whenever `onInputData` is called with a length
at most the input region's capacity, it raises no fault, sets the input
region's position to that length, leaves the input buffer and capacity
untouched, and invokes the `handleInput` hook with the input region's bytes
and that length. -/
theorem onInputData_success (st : HState) (length : Nat)
    (h : length ≤ st.ib.capacity) :
    (onInputData st length).2 = none ∧
    (onInputData st length).1.ib.position = length ∧
    (onInputData st length).1.ib.buff = st.ib.buff ∧
    (onInputData st length).1.ib.capacity = st.ib.capacity ∧
    (onInputData st length).1.inputCalls
      = st.inputCalls ++ [((List.range length).map st.ib.buff, length)] := by
  have h' : ¬ st.ib.capacity < length := Nat.not_lt.mpr h
  simp [onInputData, h']

theorem onInputData_success_witness :
    (64 ≤ (st0 64 8).ib.capacity) ∧
    ((onInputData (st0 64 8) 64).2 = none ∧
     (onInputData (st0 64 8) 64).1.ib.position = 64 ∧
     (onInputData (st0 64 8) 64).1.ib.buff = (st0 64 8).ib.buff ∧
     (onInputData (st0 64 8) 64).1.ib.capacity = (st0 64 8).ib.capacity ∧
     (onInputData (st0 64 8) 64).1.inputCalls
       = (st0 64 8).inputCalls ++ [((List.range 64).map (st0 64 8).ib.buff, 64)]) :=
  ⟨by decide, onInputData_success (st0 64 8) 64 (by decide)⟩

/-- C10 (error atomicity of `onInputData`): when the bounds check fails
(length strictly greater than the input region's capacity), the handler state
is returned unchanged — the `THROW_EXCEPTION` fires before any mutation, so
the input region's buffer, capacity and position and every other component
retain their previous values. -/
theorem onInputData_fault_state_unchanged (st : HState) (length : Nat)
    (h : st.ib.capacity < length) :
    (onInputData st length).1 = st := by
  simp [onInputData, h]

theorem onInputData_fault_state_unchanged_witness :
    ((st0 64 8).ib.capacity < 65) ∧ (onInputData (st0 64 8) 65).1 = st0 64 8 :=
  ⟨by decide, onInputData_fault_state_unchanged (st0 64 8) 65 (by decide)⟩

end NativeTask
